import Mathlib

/-!
Verification of `statefultask::TimerQueue` (src/TimerQueue.h).

Embedding conventions:
* `Timer*` is modelled as `Option T` for an abstract timer type `T`:
  `none` is the `nullptr` placeholder left behind by `cancel`.
* `std::deque<Timer*> m_running_timers` is modelled as `List (Option T)`
  (front of the deque = head of the list).
* `uint64_t m_sequence_offset` and deque indices are modelled as `Nat`.
  In `cancel`, the source computes `size_t i = sequence - m_sequence_offset`
  with unsigned wrap-around and then checks `ASSERT(0 <= i && i < size())`;
  for `sequence < m_sequence_offset` the wrapped value is astronomically
  large and the check fails in any feasible run, so the check is modelled
  as the mathematical conjunction
  `m_sequence_offset <= sequence AND sequence - m_sequence_offset < size()`.
* A failing `ASSERT` is modelled by returning `none`: `cancel` and `pop`
  return `Option` results, `none` meaning the assertion branch was taken.
-/

namespace statefultask

/-- State of a `TimerQueue`: the popped-so-far counter `m_sequence_offset`
and the deque `m_running_timers` of (possibly cancelled, then `none`)
timers. -/
structure TimerQueue (T : Type) where
  m_sequence_offset : Nat
  m_running_timers : List (Option T)
deriving DecidableEq, Repr

/-- The empty queue built by the default constructor `TimerQueue()`. -/
def TimerQueue.init (T : Type) : TimerQueue T := ⟨0, []⟩

/-- Models the do/while sweep loop shared by `cancel` (front case, after the
front slot has already been removed) and `pop` (after the front element has
been passed): repeatedly remove leading `nullptr` entries, counting how many
were removed.  Returns (number of nulls removed, remaining deque). -/
def dropLeadingNulls {T : Type} : List (Option T) → Nat × List (Option T)
  | none :: rest =>
    let p := dropLeadingNulls rest
    (p.1 + 1, p.2)
  | l => (0, l)

/-- `uint64_t TimerQueue::push(Timer* timer)`: append, then return
`m_running_timers.size() - 1 + m_sequence_offset`. -/
def TimerQueue.push {T : Type} (q : TimerQueue T) (timer : T) : Nat × TimerQueue T :=
  let running := q.m_running_timers ++ [some timer]
  (running.length - 1 + q.m_sequence_offset, ⟨q.m_sequence_offset, running⟩)

/-- `bool TimerQueue::is_current(uint64_t sequence) const`. -/
def TimerQueue.is_current {T : Type} (q : TimerQueue T) (sequence : Nat) : Bool :=
  sequence == q.m_sequence_offset

/-- `bool TimerQueue::cancel(uint64_t sequence)`.  `none` models a failing
`ASSERT` (index out of range, or entry already `nullptr`).  On success the
pair holds the returned `bool` (was the cancelled timer current?) and the
new queue state.  In the current case the source pops the front (the slot
just set to `nullptr`) and then sweeps subsequent nulls; this is the
mandatory first iteration of its do/while loop followed by
`dropLeadingNulls` on the tail. -/
def TimerQueue.cancel {T : Type} (q : TimerQueue T) (sequence : Nat) :
    Option (Bool × TimerQueue T) :=
  let i := sequence - q.m_sequence_offset
  if q.m_sequence_offset ≤ sequence ∧ i < q.m_running_timers.length then
    match q.m_running_timers[i]? with
    | some (some _) =>
      let running := q.m_running_timers.set i none
      if i = 0 then
        let p := dropLeadingNulls running.tail
        some (true, ⟨q.m_sequence_offset + 1 + p.1, p.2⟩)
      else
        some (false, ⟨q.m_sequence_offset, running⟩)
    | _ => none
  else none

/-- `Timer* TimerQueue::pop()`.  `none` models the failing
`ASSERT(b != e)` on an empty queue.  On success returns the front pointer
(still an `Option T`: the class invariant, proved below, is what makes it
non-null on reachable states) and the state after the sweep loop. -/
def TimerQueue.pop {T : Type} (q : TimerQueue T) : Option (Option T × TimerQueue T) :=
  match q.m_running_timers with
  | [] => none
  | timer :: rest =>
    let p := dropLeadingNulls rest
    some (timer, ⟨q.m_sequence_offset + 1 + p.1, p.2⟩)

/-- `bool TimerQueue::empty() const`. -/
def TimerQueue.empty {T : Type} (q : TimerQueue T) : Bool :=
  q.m_running_timers.isEmpty

/-- `size_type TimerQueue::size() const`. -/
def TimerQueue.size {T : Type} (q : TimerQueue T) : Nat :=
  q.m_running_timers.length

/-- `uint64_t TimerQueue::get_sequence_offset() const`. -/
def TimerQueue.get_sequence_offset {T : Type} (q : TimerQueue T) : Nat :=
  q.m_sequence_offset

/-- `int TimerQueue::cancelled_in_queue() const`. -/
def TimerQueue.cancelled_in_queue {T : Type} (q : TimerQueue T) : Nat :=
  q.m_running_timers.countP fun timer => timer.isNone

/-- One operation of the public mutating interface. -/
inductive Op (T : Type) where
  | push (timer : T)
  | cancel (sequence : Nat)
  | pop
deriving DecidableEq, Repr

/-- Effect of one operation on the state; `none` when the operation's
precondition fails (an `ASSERT` fires). -/
def TimerQueue.step {T : Type} (q : TimerQueue T) : Op T → Option (TimerQueue T)
  | .push t => some (q.push t).2
  | .cancel s => (q.cancel s).map Prod.snd
  | .pop => q.pop.map Prod.snd

/-- Run a list of operations; `none` as soon as one of them fails its
precondition.  A "precondition-respecting" sequence is one on which `run`
returns `some`. -/
def TimerQueue.run {T : Type} (q : TimerQueue T) : List (Op T) → Option (TimerQueue T)
  | [] => some q
  | op :: ops => (q.step op).bind fun q2 => q2.run ops

/-- States reachable from the empty queue by precondition-respecting
`push` / `cancel` / `pop` operations. -/
inductive TimerQueue.Reachable {T : Type} : TimerQueue T → Prop where
  | init : TimerQueue.Reachable (TimerQueue.init T)
  | push (t : T) {q : TimerQueue T} :
      TimerQueue.Reachable q → TimerQueue.Reachable (q.push t).2
  | cancel {q q2 : TimerQueue T} {s : Nat} {b : Bool} :
      TimerQueue.Reachable q → q.cancel s = some (b, q2) → TimerQueue.Reachable q2
  | pop {q q2 : TimerQueue T} {x : Option T} :
      TimerQueue.Reachable q → q.pop = some (x, q2) → TimerQueue.Reachable q2

/-- Live entries of a suffix of the deque whose first slot has external id
`base`: the (id, timer) pairs of the non-null slots, in queue order. -/
def liveFrom {T : Type} (base : Nat) : List (Option T) → List (Nat × T)
  | [] => []
  | some t :: rest => (base, t) :: liveFrom (base + 1) rest
  | none :: rest => liveFrom (base + 1) rest

/-- Semantic view of the queue: the not-yet-cancelled, not-yet-popped timers
with their externally visible ids `index + m_sequence_offset` (the spec's
sequence-identity rule), in expiration order. -/
def TimerQueue.liveEntries {T : Type} (q : TimerQueue T) : List (Nat × T) :=
  liveFrom q.m_sequence_offset q.m_running_timers

/-- Number of elements an operation appends to the deque (1 for `push`). -/
def Op.pushCount {T : Type} : Op T → Nat
  | .push _ => 1
  | _ => 0

/-- Total number of elements removed ("popped", in the sense of the source
comment on `m_sequence_offset`) from the deque along a run, computed purely
from the sizes: each step removes `size + pushCount - new size` elements. -/
def TimerQueue.removedAlong {T : Type} (q : TimerQueue T) :
    List (Op T) → Option Nat
  | [] => some 0
  | op :: ops =>
    (q.step op).bind fun q2 =>
      (q2.removedAlong ops).map fun n => (q.size + op.pushCount - q2.size) + n

/-! Helper lemmas about the sweep loop and the live-entry view. -/

theorem dropLeadingNulls_head {T : Type} (l : List (Option T)) :
    (dropLeadingNulls l).2.head? ≠ some none := by
  induction l with
  | nil => simp [dropLeadingNulls]
  | cons x rest ih =>
    cases x with
    | none => simpa [dropLeadingNulls] using ih
    | some t => simp [dropLeadingNulls]

theorem dropLeadingNulls_length {T : Type} (l : List (Option T)) :
    (dropLeadingNulls l).1 + (dropLeadingNulls l).2.length = l.length := by
  induction l with
  | nil => simp [dropLeadingNulls]
  | cons x rest ih =>
    cases x with
    | none => simp [dropLeadingNulls]; omega
    | some t => simp [dropLeadingNulls]

theorem liveFrom_dropLeadingNulls {T : Type} (l : List (Option T)) (base : Nat) :
    liveFrom (base + (dropLeadingNulls l).1) (dropLeadingNulls l).2 =
      liveFrom base l := by
  induction l generalizing base with
  | nil => simp [dropLeadingNulls]
  | cons x rest ih =>
    cases x with
    | none =>
      have h := ih (base + 1)
      simp only [dropLeadingNulls, liveFrom]
      rw [show base + ((dropLeadingNulls rest).1 + 1) =
            base + 1 + (dropLeadingNulls rest).1 by omega]
      exact h
    | some t => simp [dropLeadingNulls]

theorem head?_set_of_ne_zero {T : Type} (l : List T) (i : Nat) (x : T)
    (h : i ≠ 0) : (l.set i x).head? = l.head? := by
  cases l with
  | nil => simp
  | cons a rest =>
    cases i with
    | zero => exact absurd rfl h
    | succ j => simp [List.set]

theorem tail_set_zero {T : Type} (l : List T) (x : T) :
    (l.set 0 x).tail = l.tail := by
  cases l <;> simp [List.set]

/-- Unfolding characterization of a successful `cancel`. -/
theorem cancel_eq_some {T : Type} (q : TimerQueue T) (sequence : Nat)
    (b : Bool) (q2 : TimerQueue T) (h : q.cancel sequence = some (b, q2)) :
    q.m_sequence_offset ≤ sequence ∧
    sequence - q.m_sequence_offset < q.m_running_timers.length ∧
    (∃ t, q.m_running_timers[sequence - q.m_sequence_offset]? = some (some t)) ∧
    ((sequence = q.m_sequence_offset ∧ b = true ∧
        q2 = ⟨q.m_sequence_offset + 1 +
                (dropLeadingNulls q.m_running_timers.tail).1,
              (dropLeadingNulls q.m_running_timers.tail).2⟩) ∨
     (sequence ≠ q.m_sequence_offset ∧ b = false ∧
        q2 = ⟨q.m_sequence_offset,
              q.m_running_timers.set (sequence - q.m_sequence_offset) none⟩)) := by
  simp only [TimerQueue.cancel] at h
  split at h
  case isFalse => exact absurd h (by simp)
  case isTrue hc =>
    obtain ⟨hle, hlt⟩ := hc
    refine ⟨hle, hlt, ?_⟩
    split at h
    case h_2 => exact absurd h (by simp)
    case h_1 t heq =>
      refine ⟨⟨t, heq⟩, ?_⟩
      split at h
      case isTrue hi =>
        obtain ⟨hb, hq⟩ := Prod.mk.injEq .. ▸ Option.some.inj h
        left
        refine ⟨by omega, hb.symm, ?_⟩
        rw [← hq, hi, tail_set_zero]
      case isFalse hi =>
        obtain ⟨hb, hq⟩ := Prod.mk.injEq .. ▸ Option.some.inj h
        right
        exact ⟨by omega, hb.symm, hq.symm⟩

theorem set_concat_length {T : Type} (l : List T) (a b : T) :
    (l ++ [a]).set l.length b = l ++ [b] := by
  induction l with
  | nil => rfl
  | cons x rest ih => simp [ih]

theorem liveFrom_append_none {T : Type} (l : List (Option T)) (base : Nat) :
    liveFrom base (l ++ [none]) = liveFrom base l := by
  induction l generalizing base with
  | nil => rfl
  | cons x rest ih => cases x <;> simp [liveFrom, ih]

theorem liveFrom_append_some {T : Type} (l : List (Option T)) (base : Nat) (u : T) :
    liveFrom base (l ++ [some u]) = liveFrom base l ++ [(base + l.length, u)] := by
  induction l generalizing base with
  | nil => simp [liveFrom]
  | cons x rest ih =>
    cases x <;> simp [liveFrom, ih] <;> omega

/-- Evaluation of `cancel` on a valid, still-live sequence number. -/
theorem cancel_eval {T : Type} (q : TimerQueue T) (s : Nat) (t : T)
    (hle : q.m_sequence_offset ≤ s)
    (hent : q.m_running_timers[s - q.m_sequence_offset]? = some (some t)) :
    q.cancel s =
      if s - q.m_sequence_offset = 0 then
        some (true,
          ⟨q.m_sequence_offset + 1 + (dropLeadingNulls q.m_running_timers.tail).1,
           (dropLeadingNulls q.m_running_timers.tail).2⟩)
      else
        some (false,
          ⟨q.m_sequence_offset,
           q.m_running_timers.set (s - q.m_sequence_offset) none⟩) := by
  have hlt : s - q.m_sequence_offset < q.m_running_timers.length := by
    by_contra hge
    rw [List.getElem?_eq_none (Nat.le_of_not_lt hge)] at hent
    exact Option.noConfusion hent
  simp only [TimerQueue.cancel, hent, if_pos (And.intro hle hlt)]
  by_cases hi : s - q.m_sequence_offset = 0
  · rw [if_pos hi, if_pos hi, hi, tail_set_zero]
  · rw [if_neg hi, if_neg hi]

/-- Unfolding characterization of a successful `pop`. -/
theorem pop_eq_some {T : Type} (q : TimerQueue T) (x : Option T)
    (q2 : TimerQueue T) (h : q.pop = some (x, q2)) :
    ∃ rest, q.m_running_timers = x :: rest ∧
      q2 = ⟨q.m_sequence_offset + 1 + (dropLeadingNulls rest).1,
            (dropLeadingNulls rest).2⟩ := by
  unfold TimerQueue.pop at h
  split at h
  case h_1 => exact absurd h (by simp)
  case h_2 timer rest heq =>
    obtain ⟨hx, hq⟩ := Prod.mk.injEq .. ▸ Option.some.inj h
    exact ⟨rest, hx ▸ heq, hq.symm⟩

theorem head?_append_single {T : Type} (l : List (Option T)) (t : T)
    (h : l.head? ≠ some none) : (l ++ [some t]).head? ≠ some none := by
  cases l with
  | nil => simp
  | cons a rest => simpa using h

/-- Class invariant of `TimerQueue`: on every reachable state the front
of `m_running_timers`, when present, is not the null placeholder. -/
theorem reachable_front_not_null {T : Type} (q : TimerQueue T)
    (h : q.Reachable) : q.m_running_timers.head? ≠ some none := by
  induction h with
  | init => simp [TimerQueue.init]
  | push t hq ih => exact head?_append_single _ t ih
  | cancel hq hc ih =>
    rename_i q q2 s b
    obtain ⟨hle, hlt, ⟨t, het⟩, hcase⟩ := cancel_eq_some q s b q2 hc
    rcases hcase with ⟨hs, hb, hq2⟩ | ⟨hs, hb, hq2⟩
    · rw [hq2]
      exact dropLeadingNulls_head _
    · rw [hq2]
      have : s - q.m_sequence_offset ≠ 0 := by omega
      simpa [head?_set_of_ne_zero _ _ _ this] using ih
  | pop hq hp ih =>
    rename_i q q2 x
    obtain ⟨rest, hrun, hq2⟩ := pop_eq_some q x q2 hp
    rw [hq2]
    exact dropLeadingNulls_head _

/-- C1: on every state reachable from the empty queue by
precondition-respecting operations, the front entry, whenever the queue is
non-empty, is non-null, and hence `pop` on a non-empty queue returns a
non-null timer. -/
theorem C1_front_and_pop_nonnull {T : Type} (q : TimerQueue T)
    (h : q.Reachable) :
    (∀ x, q.m_running_timers.head? = some x → x ≠ none) ∧
    (q.m_running_timers ≠ [] → ∃ t q2, q.pop = some (some t, q2)) := by
  have hfront := reachable_front_not_null q h
  constructor
  · intro x hx hnone
    exact hfront (hnone ▸ hx)
  · intro hne
    cases hrun : q.m_running_timers with
    | nil => exact absurd hrun hne
    | cons timer rest =>
      have : timer ≠ none := by
        intro hnone
        exact hfront (by rw [hrun, hnone]; rfl)
      obtain ⟨t, ht⟩ := Option.ne_none_iff_exists.mp this
      refine ⟨t, ⟨q.m_sequence_offset + 1 + (dropLeadingNulls rest).1,
                  (dropLeadingNulls rest).2⟩, ?_⟩
      unfold TimerQueue.pop
      rw [hrun, ← ht]

/-- Witness for C1 at the reachable state with one pushed timer. -/
theorem C1_witness :
    (∀ x, (TimerQueue.mk 0 [some 5] : TimerQueue Nat).m_running_timers.head? =
        some x → x ≠ none) ∧
    ((TimerQueue.mk 0 [some 5] : TimerQueue Nat).m_running_timers ≠ [] →
      ∃ t q2, (TimerQueue.mk 0 [some 5] : TimerQueue Nat).pop = some (some t, q2)) :=
  C1_front_and_pop_nonnull _ (TimerQueue.Reachable.push 5 TimerQueue.Reachable.init)

/-- C3: on every reachable state, `m_sequence_offset + size()` is exactly
the id that the next `push` will return. -/
theorem C3_offset_plus_size_eq_next_id {T : Type} (q : TimerQueue T)
    (h : q.Reachable) (t : T) :
    q.m_sequence_offset + q.size = (q.push t).1 := by
  simp only [TimerQueue.push, TimerQueue.size, List.length_append,
    List.length_singleton]
  omega

/-- Witness for C3 at the empty queue. -/
theorem C3_witness :
    (TimerQueue.init Nat).m_sequence_offset + (TimerQueue.init Nat).size =
      ((TimerQueue.init Nat).push 7).1 :=
  C3_offset_plus_size_eq_next_id (TimerQueue.init Nat) TimerQueue.Reachable.init 7

/-- Scenario of spec section 8 example 5 (front-cancel sweep), driven through
the embedded operations with timers 10, 11, 12.  The three pushes return ids
0, 1, 2; cancelling id 1 is not current (returns `false`, leaves a null
placeholder); cancelling id 0 is current (returns `true`) and sweeps both the
freshly nulled front and the placeholder behind it, so `m_sequence_offset`
ends at 2 and the single remaining live entry is timer 12 under id 2. -/
theorem C8_front_cancel_sweep :
    (TimerQueue.init Nat).push 10 = (0, ⟨0, [some 10]⟩) ∧
    (TimerQueue.mk 0 [some 10] : TimerQueue Nat).push 11 = (1, ⟨0, [some 10, some 11]⟩) ∧
    (TimerQueue.mk 0 [some 10, some 11] : TimerQueue Nat).push 12 =
      (2, ⟨0, [some 10, some 11, some 12]⟩) ∧
    (TimerQueue.mk 0 [some 10, some 11, some 12] : TimerQueue Nat).cancel 1 =
      some (false, ⟨0, [some 10, none, some 12]⟩) ∧
    (TimerQueue.mk 0 [some 10, none, some 12] : TimerQueue Nat).cancel 0 =
      some (true, ⟨2, [some 12]⟩) ∧
    (TimerQueue.mk 2 [some 12] : TimerQueue Nat).get_sequence_offset = 2 ∧
    (TimerQueue.mk 2 [some 12] : TimerQueue Nat).liveEntries = [(2, 12)] := by
  decide

/-- The claim of spec scenario 4 as stated is false: after pushing ids 0..4
(timers 100..104), cancelling id 2 and popping twice, `sequence_offset` is
not 2 -- the second `pop` also sweeps the null placeholder at id 2 and
counts it in the offset. -/
theorem C2_counterexample :
    ¬ (((TimerQueue.init Nat).run
        [Op.push 100, Op.push 101, Op.push 102, Op.push 103, Op.push 104,
         Op.cancel 2, Op.pop, Op.pop]).map TimerQueue.get_sequence_offset
       = some 2) := by
  decide

/-- Amended scenario 4: the pushes return ids 0..4; cancelling id 2 leaves a
null placeholder; the two pops return the timers of ids 0 and 1; after the
second pop `m_sequence_offset` equals 3 (the swept placeholder of id 2 is
counted), and the front of the queue is the timer of id 3. -/
theorem C2_mid_cancel_pops :
    (TimerQueue.init Nat).push 100 = (0, ⟨0, [some 100]⟩) ∧
    (TimerQueue.mk 0 [some 100] : TimerQueue Nat).push 101 =
      (1, ⟨0, [some 100, some 101]⟩) ∧
    (TimerQueue.mk 0 [some 100, some 101] : TimerQueue Nat).push 102 =
      (2, ⟨0, [some 100, some 101, some 102]⟩) ∧
    (TimerQueue.mk 0 [some 100, some 101, some 102] : TimerQueue Nat).push 103 =
      (3, ⟨0, [some 100, some 101, some 102, some 103]⟩) ∧
    (TimerQueue.mk 0 [some 100, some 101, some 102, some 103] : TimerQueue Nat).push 104 =
      (4, ⟨0, [some 100, some 101, some 102, some 103, some 104]⟩) ∧
    (TimerQueue.mk 0 [some 100, some 101, some 102, some 103, some 104] :
        TimerQueue Nat).cancel 2 =
      some (false, ⟨0, [some 100, some 101, none, some 103, some 104]⟩) ∧
    (TimerQueue.mk 0 [some 100, some 101, none, some 103, some 104] :
        TimerQueue Nat).pop =
      some (some 100, ⟨1, [some 101, none, some 103, some 104]⟩) ∧
    (TimerQueue.mk 1 [some 101, none, some 103, some 104] : TimerQueue Nat).pop =
      some (some 101, ⟨3, [some 103, some 104]⟩) ∧
    (TimerQueue.mk 3 [some 103, some 104] : TimerQueue Nat).get_sequence_offset = 3 ∧
    (TimerQueue.mk 3 [some 103, some 104] : TimerQueue Nat).liveEntries =
      [(3, 103), (4, 104)] := by
  decide

/-- C4: for a sequence number of an earlier push whose entry is neither
popped (`m_sequence_offset <= s`) nor cancelled (slot still non-null),
`cancel` nulls the slot `s - m_sequence_offset` and reports `true` exactly
when that index was 0, i.e. exactly when `is_current s` held before the
call; in the current case it also pops and sweeps all leading nulls. -/
theorem C4_cancel_true_iff_current {T : Type} (q : TimerQueue T) (s : Nat)
    (t : T) (hle : q.m_sequence_offset ≤ s)
    (hent : q.m_running_timers[s - q.m_sequence_offset]? = some (some t)) :
    (q.cancel s).map Prod.fst = some (q.is_current s) ∧
    (q.is_current s = false →
      q.cancel s = some (false,
        ⟨q.m_sequence_offset,
         q.m_running_timers.set (s - q.m_sequence_offset) none⟩)) ∧
    (q.is_current s = true →
      q.cancel s = some (true,
        ⟨q.m_sequence_offset + 1 + (dropLeadingNulls q.m_running_timers.tail).1,
         (dropLeadingNulls q.m_running_timers.tail).2⟩)) := by
  rw [cancel_eval q s t hle hent]
  by_cases hi : s - q.m_sequence_offset = 0
  · have hcur : q.is_current s = true := by
      simp only [TimerQueue.is_current, beq_iff_eq]
      omega
    rw [if_pos hi, hcur]
    refine ⟨rfl, ?_, fun _ => rfl⟩
    intro hff
    exact absurd hff (by decide)
  · have hcur : q.is_current s = false := by
      simp only [TimerQueue.is_current, beq_eq_false_iff_ne, ne_eq]
      omega
    rw [if_neg hi, hcur]
    refine ⟨rfl, fun _ => rfl, ?_⟩
    intro htt
    exact absurd htt (by decide)

/-- Witness for C4: cancelling the current entry of a one-element queue. -/
theorem C4_witness :
    ((TimerQueue.mk 0 [some 9] : TimerQueue Nat).cancel 0).map Prod.fst =
        some true ∧
    (true = false →
      (TimerQueue.mk 0 [some 9] : TimerQueue Nat).cancel 0 =
        some (false, ⟨0, [none]⟩)) ∧
    (true = true →
      (TimerQueue.mk 0 [some 9] : TimerQueue Nat).cancel 0 =
        some (true, ⟨1, []⟩)) :=
  C4_cancel_true_iff_current (TimerQueue.mk 0 [some 9]) 0 9 (Nat.zero_le 0) rfl

/-- C6: pushing a timer and immediately cancelling the id that `push`
returned leaves the queue semantically unchanged: the cancel succeeds, its
result is `true` exactly when the entry was at the front (the queue was
empty), and the live entries, the front pointer and emptiness all equal
those of the original queue, while `m_sequence_offset` advances exactly in
the front case. -/
theorem C6_push_then_cancel {T : Type} (q : TimerQueue T) (t : T) :
    ∃ q2 : TimerQueue T,
      ((q.push t).2).cancel (q.push t).1 = some (q.empty, q2) ∧
      q2.liveEntries = q.liveEntries ∧
      q2.m_running_timers.head? = q.m_running_timers.head? ∧
      q2.empty = q.empty ∧
      q2.m_sequence_offset =
        (if q.empty then q.m_sequence_offset + 1 else q.m_sequence_offset) := by
  obtain ⟨off, l⟩ := q
  cases l with
  | nil =>
    refine ⟨⟨off + 1, []⟩, ?_, ?_, ?_, ?_, ?_⟩
    · simp [TimerQueue.push, TimerQueue.cancel, TimerQueue.empty, dropLeadingNulls]
    · simp [TimerQueue.liveEntries, liveFrom]
    · rfl
    · rfl
    · simp [TimerQueue.empty]
  | cons a rest =>
    have hid : ((⟨off, a :: rest⟩ : TimerQueue T).push t).1 =
        rest.length + 1 + off := by
      simp only [TimerQueue.push, List.length_append, List.length_cons,
        List.length_nil]
      omega
    have hq1 : ((⟨off, a :: rest⟩ : TimerQueue T).push t).2 =
        ⟨off, (a :: rest) ++ [some t]⟩ := rfl
    have hidx : rest.length + 1 + off - off = (a :: rest).length := by
      simp only [List.length_cons]
      omega
    have hent : ((a :: rest) ++ [some t])[rest.length + 1 + off - off]? =
        some (some t) := by
      rw [hidx]
      exact List.getElem?_concat_length _ _
    refine ⟨⟨off, (a :: rest) ++ [none]⟩, ?_, ?_, ?_, ?_, ?_⟩
    · rw [hq1, hid,
        cancel_eval ⟨off, (a :: rest) ++ [some t]⟩ (rest.length + 1 + off) t
          (by show off ≤ rest.length + 1 + off; omega) hent]
      dsimp only
      rw [if_neg (by omega)]
      rw [show ((a :: rest) ++ [some t]).set (rest.length + 1 + off - off) none =
            (a :: rest) ++ [none] by rw [hidx, set_concat_length]]
      simp [TimerQueue.empty]
    · exact liveFrom_append_none (a :: rest) off
    · simp
    · simp [TimerQueue.empty]
    · simp [TimerQueue.empty]

/-- Effect of one successful step on `m_sequence_offset` and `size`: the
offset never decreases, `m_sequence_offset + size` grows by exactly the
number of pushed elements, and the size grows by at most that number. -/
theorem step_offset_size {T : Type} (q q2 : TimerQueue T) (op : Op T)
    (h : q.step op = some q2) :
    q.m_sequence_offset ≤ q2.m_sequence_offset ∧
    q2.m_sequence_offset + q2.size = q.m_sequence_offset + q.size + op.pushCount ∧
    q2.size ≤ q.size + op.pushCount := by
  cases op with
  | push t =>
    have hq2 : q2 = (q.push t).2 := by
      simpa [TimerQueue.step] using h.symm
    subst hq2
    simp only [TimerQueue.push, TimerQueue.size, Op.pushCount,
      List.length_append, List.length_cons, List.length_nil]
    omega
  | cancel s =>
    simp only [TimerQueue.step] at h
    cases hc : q.cancel s with
    | none => rw [hc] at h; exact absurd h (by simp)
    | some r =>
      rw [hc] at h
      obtain ⟨b, qq⟩ := r
      have hqq2 : qq = q2 := by simpa using h
      subst hqq2
      obtain ⟨hle, hlt, ⟨t, het⟩, hcase⟩ := cancel_eq_some q s b qq hc
      rcases hcase with ⟨hs, hb, hq2⟩ | ⟨hs, hb, hq2⟩
      · subst hq2
        have hlen := dropLeadingNulls_length (T := T) q.m_running_timers.tail
        have htail : q.m_running_timers.tail.length =
            q.m_running_timers.length - 1 := List.length_tail _
        simp only [TimerQueue.size, Op.pushCount]
        omega
      · subst hq2
        simp only [TimerQueue.size, Op.pushCount, List.length_set]
        omega
  | pop =>
    simp only [TimerQueue.step] at h
    cases hp : q.pop with
    | none => rw [hp] at h; exact absurd h (by simp)
    | some r =>
      rw [hp] at h
      obtain ⟨x, qq⟩ := r
      have hqq2 : qq = q2 := by simpa using h
      subst hqq2
      obtain ⟨rest, hrun, hq2⟩ := pop_eq_some q x qq hp
      subst hq2
      have hlen := dropLeadingNulls_length (T := T) rest
      simp only [TimerQueue.size, Op.pushCount, hrun, List.length_cons]
      omega

/-- Along any precondition-respecting run, the offset never decreases,
`m_sequence_offset + size` never decreases, and the number of elements
removed from the deque equals the total growth of `m_sequence_offset`. -/
theorem run_offset_size {T : Type} (ops : List (Op T)) (q q2 : TimerQueue T)
    (h : q.run ops = some q2) :
    q.m_sequence_offset ≤ q2.m_sequence_offset ∧
    q.m_sequence_offset + q.size ≤ q2.m_sequence_offset + q2.size ∧
    q.removedAlong ops = some (q2.m_sequence_offset - q.m_sequence_offset) := by
  induction ops generalizing q with
  | nil =>
    simp only [TimerQueue.run, Option.some.injEq] at h
    subst h
    simp [TimerQueue.removedAlong]
  | cons op ops ih =>
    simp only [TimerQueue.run] at h
    cases hs : q.step op with
    | none => rw [hs] at h; exact absurd h (by simp)
    | some q1 =>
      rw [hs] at h
      replace h : q1.run ops = some q2 := h
      obtain ⟨h1, h2, h3⟩ := step_offset_size q q1 op hs
      obtain ⟨ih1, ih2, ih3⟩ := ih q1 h
      refine ⟨le_trans h1 ih1, by omega, ?_⟩
      have hrem : q.removedAlong (op :: ops) =
          some ((q.size + op.pushCount - q1.size) +
                (q2.m_sequence_offset - q1.m_sequence_offset)) := by
        simp [TimerQueue.removedAlong, hs, ih3]
      rw [hrem]
      congr 1
      omega

/-- C5: over any precondition-respecting run from the empty queue,
`m_sequence_offset` equals the number of entries removed ("popped") from
the running deque so far, and it never decreases under further
precondition-respecting operations. -/
theorem C5_offset_counts_removals {T : Type} (ops : List (Op T))
    (q : TimerQueue T) (h : (TimerQueue.init T).run ops = some q) :
    (TimerQueue.init T).removedAlong ops = some q.m_sequence_offset ∧
    ∀ ops2 q2, q.run ops2 = some q2 →
      q.m_sequence_offset ≤ q2.m_sequence_offset := by
  obtain ⟨h1, h2, h3⟩ := run_offset_size ops (TimerQueue.init T) q h
  constructor
  · simpa [TimerQueue.init] using h3
  · intro ops2 q2 h4
    exact (run_offset_size ops2 q q2 h4).1

/-- Witness for C5: one push and one pop remove one element in total, and
the offset does not decrease over a later push-and-front-cancel. -/
theorem C5_witness :
    (TimerQueue.init Nat).removedAlong [Op.push 3, Op.pop] = some 1 ∧
    (1 : Nat) ≤ 2 :=
  ⟨(C5_offset_counts_removals [Op.push 3, Op.pop] ⟨1, []⟩ rfl).1,
   (C5_offset_counts_removals [Op.push 3, Op.pop] ⟨1, []⟩ rfl).2
     [Op.push 4, Op.cancel 1] ⟨2, []⟩ rfl⟩

/-- C10: the id returned by a push is strictly smaller than the id returned
by any later push, across any precondition-respecting operations in
between; hence push never returns the same id twice. -/
theorem C10_push_ids_strictly_increase {T : Type} (q : TimerQueue T)
    (t t2 : T) (ops : List (Op T)) (q2 : TimerQueue T)
    (h : ((q.push t).2).run ops = some q2) :
    (q.push t).1 < (q2.push t2).1 := by
  have hmono := (run_offset_size ops (q.push t).2 q2 h).2.1
  simp only [TimerQueue.push, TimerQueue.size, List.length_append,
    List.length_cons, List.length_nil] at hmono ⊢
  omega

/-- Witness for C10: the first push returns 0, the next one returns 1. -/
theorem C10_witness :
    ((TimerQueue.init Nat).push 5).1 <
      ((TimerQueue.mk 0 [some 5] : TimerQueue Nat).push 6).1 :=
  C10_push_ids_strictly_increase (TimerQueue.init Nat) 5 6 [] ⟨0, [some 5]⟩ rfl

theorem liveFrom_mem_getElem {T : Type} (l : List (Option T)) (base id : Nat)
    (t : T) (h : (id, t) ∈ liveFrom base l) :
    base ≤ id ∧ l[id - base]? = some (some t) := by
  induction l generalizing base with
  | nil => simp [liveFrom] at h
  | cons x rest ih =>
    cases x with
    | some u =>
      simp only [liveFrom, List.mem_cons] at h
      rcases h with heq | hmem
      · have h1 : id = base := congrArg Prod.fst heq
        have h2 : t = u := congrArg Prod.snd heq
        subst h1
        subst h2
        exact ⟨Nat.le_refl _, by simp [Nat.sub_self]⟩
      · obtain ⟨hle, hget⟩ := ih (base + 1) hmem
        refine ⟨by omega, ?_⟩
        rw [show id - base = (id - (base + 1)) + 1 by omega]
        simpa using hget
    | none =>
      simp only [liveFrom] at h
      obtain ⟨hle, hget⟩ := ih (base + 1) h
      refine ⟨by omega, ?_⟩
      rw [show id - base = (id - (base + 1)) + 1 by omega]
      simpa using hget

theorem liveFrom_tail_of_ne {T : Type} (x : Option T) (rest : List (Option T))
    (base id : Nat) (t : T) (h : (id, t) ∈ liveFrom base (x :: rest))
    (hne : id ≠ base) : (id, t) ∈ liveFrom (base + 1) rest := by
  cases x with
  | none => simpa [liveFrom] using h
  | some u =>
    simp only [liveFrom, List.mem_cons] at h
    rcases h with heq | hmem
    · exact absurd (congrArg Prod.fst heq) hne
    · exact hmem

theorem liveFrom_set_ne {T : Type} (l : List (Option T)) (base j id : Nat)
    (t : T) (h : (id, t) ∈ liveFrom base l) (hne : id ≠ base + j) :
    (id, t) ∈ liveFrom base (l.set j none) := by
  induction l generalizing base j with
  | nil => simp [liveFrom] at h
  | cons x rest ih =>
    cases j with
    | zero =>
      have hmem := liveFrom_tail_of_ne x rest base id t h (by omega)
      simpa [liveFrom] using hmem
    | succ j2 =>
      cases x with
      | some u =>
        simp only [List.set_cons_succ, liveFrom, List.mem_cons] at h ⊢
        rcases h with heq | hmem
        · exact Or.inl heq
        · exact Or.inr (ih (base + 1) j2 hmem (by omega))
      | none =>
        simp only [List.set_cons_succ, liveFrom] at h ⊢
        exact ih (base + 1) j2 h (by omega)

/-- C7: at any reachable state, a live entry with visible id `id` sits at
slot `id - m_sequence_offset` (so the entry at index `i` has id
`i + m_sequence_offset`), and an entry that is neither the popped front nor
the cancelled target keeps its (id, timer) association under `push`,
`cancel` and `pop`. -/
theorem C7_ids_stable {T : Type} (q : TimerQueue T) (id : Nat) (t : T)
    (hq : q.Reachable) (hmem : (id, t) ∈ q.liveEntries) :
    (q.m_sequence_offset ≤ id ∧
      q.m_running_timers[id - q.m_sequence_offset]? = some (some t)) ∧
    (∀ t2, (id, t) ∈ ((q.push t2).2).liveEntries) ∧
    (∀ s b q2, q.cancel s = some (b, q2) → s ≠ id →
      (id, t) ∈ q2.liveEntries) ∧
    (∀ x q2, q.pop = some (x, q2) → id ≠ q.m_sequence_offset →
      (id, t) ∈ q2.liveEntries) := by
  refine ⟨liveFrom_mem_getElem _ _ _ _ hmem, ?_, ?_, ?_⟩
  · intro t2
    show (id, t) ∈ liveFrom q.m_sequence_offset (q.m_running_timers ++ [some t2])
    rw [liveFrom_append_some]
    exact List.mem_append_left _ hmem
  · intro s b q2 hc hne
    obtain ⟨hle, hlt, ⟨u, hu⟩, hcase⟩ := cancel_eq_some q s b q2 hc
    rcases hcase with ⟨hs, hb, hq2⟩ | ⟨hs, hb, hq2⟩
    · subst hq2
      show (id, t) ∈ liveFrom
        (q.m_sequence_offset + 1 + (dropLeadingNulls q.m_running_timers.tail).1)
        (dropLeadingNulls q.m_running_timers.tail).2
      rw [liveFrom_dropLeadingNulls]
      cases hl : q.m_running_timers with
      | nil => rw [hl] at hlt; simp at hlt
      | cons x rest =>
        simp only [List.tail_cons]
        have hmem2 : (id, t) ∈ liveFrom q.m_sequence_offset (x :: rest) := by
          rw [← hl]
          exact hmem
        exact liveFrom_tail_of_ne x rest _ id t hmem2 (by omega)
    · subst hq2
      show (id, t) ∈ liveFrom q.m_sequence_offset
        (q.m_running_timers.set (s - q.m_sequence_offset) none)
      exact liveFrom_set_ne _ _ _ _ _ hmem (by omega)
  · intro x q2 hp hne
    obtain ⟨rest, hrun, hq2⟩ := pop_eq_some q x q2 hp
    subst hq2
    show (id, t) ∈ liveFrom
      (q.m_sequence_offset + 1 + (dropLeadingNulls rest).1)
      (dropLeadingNulls rest).2
    rw [liveFrom_dropLeadingNulls]
    have hmem2 : (id, t) ∈ liveFrom q.m_sequence_offset (x :: rest) := by
      rw [← hrun]
      exact hmem
    exact liveFrom_tail_of_ne x rest _ id t hmem2 hne

/-- Witness for C7: the entry (0, 5) keeps its id across a later push. -/
theorem C7_witness :
    (0, 5) ∈ (TimerQueue.mk 0 [some 5, some 6] : TimerQueue Nat).liveEntries :=
  (C7_ids_stable (TimerQueue.mk 0 [some 5]) 0 5
      (TimerQueue.Reachable.push 5 TimerQueue.Reachable.init)
      (by simp [TimerQueue.liveEntries, liveFrom])).2.1 6

/-- C9: the assertion model: `pop` on an empty queue takes the assertion
branch (`none`); `cancel` on an out-of-range index or on an already-null
slot (double cancel) takes the assertion branch; and under the stated
preconditions (non-empty for `pop`; a live in-range id for `cancel`) the
operations succeed, so the assertion branches are unreachable. -/
theorem C9_asserts {T : Type} (q : TimerQueue T) (s : Nat) :
    (q.m_running_timers = [] → q.pop = none) ∧
    (q.m_running_timers.length ≤ s - q.m_sequence_offset → q.cancel s = none) ∧
    (q.m_running_timers[s - q.m_sequence_offset]? = some none →
      q.cancel s = none) ∧
    (q.m_running_timers ≠ [] → ∃ r, q.pop = some r) ∧
    (q.m_sequence_offset ≤ s →
      ∀ t, q.m_running_timers[s - q.m_sequence_offset]? = some (some t) →
        ∃ r, q.cancel s = some r) := by
  refine ⟨?_, ?_, ?_, ?_, ?_⟩
  · intro he
    unfold TimerQueue.pop
    rw [he]
  · intro hge
    simp only [TimerQueue.cancel]
    rw [if_neg (by omega)]
  · intro hnull
    simp only [TimerQueue.cancel, hnull]
    split <;> rfl
  · intro hne
    cases hl : q.m_running_timers with
    | nil => exact absurd hl hne
    | cons x rest =>
      refine ⟨(x, ⟨q.m_sequence_offset + 1 + (dropLeadingNulls rest).1,
                   (dropLeadingNulls rest).2⟩), ?_⟩
      unfold TimerQueue.pop
      rw [hl]
  · intro hle t ht
    rw [cancel_eval q s t hle ht]
    split
    · exact ⟨_, rfl⟩
    · exact ⟨_, rfl⟩

/-- Witness for C9: `pop` on the empty queue hits the assertion; `cancel`
of the live front entry succeeds. -/
theorem C9_witness :
    (TimerQueue.mk 0 [] : TimerQueue Nat).pop = none ∧
    ∃ r, (TimerQueue.mk 0 [some 3] : TimerQueue Nat).cancel 0 = some r :=
  ⟨(C9_asserts (TimerQueue.mk 0 [] : TimerQueue Nat) 0).1 rfl,
   (C9_asserts (TimerQueue.mk 0 [some 3] : TimerQueue Nat) 0).2.2.2.2
     (Nat.le_refl 0) 3 rfl⟩

end statefultask
